import Mathlib

/-!
Verification of the deadlock-detection core in
`deadlock_detecting_withinput.py` (classes `ProcessResourceTracker`,
`DeadlockDetector`, `DeadlockResolver`).

The tracker is embedded with explicit heaps so that Python's reference
semantics are captured faithfully: `self.processes` is a map from pid to a
reference to a mutable process record, and `self.resources` (a
`defaultdict(list)`) maps a resource id to a reference to a mutable list of
holder pids.  `get_system_state` copies only the two outer dicts
(`self.processes.copy()` and `dict(self.resources)`), so a snapshot shares
the inner records with the live store; the embedding keeps the address maps
and dereferences them through the heap, which makes that sharing provable.

`nx.simple_cycles` is modelled by `simpleCycles`: a graph's simple cycles
(nonempty node lists with no repeated node, consecutive edges, and a closing
edge) enumerated one representative per rotation class, which is the
documented contract of the networkx function.
-/

namespace DeadlockTool

/-- Association-list lookup, modelling Python `d[k]` / `k in d` on a dict
whose insertion order we keep. -/
def alookup {κ ν : Type} [DecidableEq κ] (l : List (κ × ν)) (k : κ) : Option ν :=
  (l.find? (fun p => decide (p.1 = k))).map (fun p => p.2)

/-- Association-list store `d[k] = v`: overwrite in place if the key is
present (Python dicts keep the original position), else append. -/
def aupsert {κ ν : Type} [DecidableEq κ] (l : List (κ × ν)) (k : κ) (v : ν) :
    List (κ × ν) :=
  if (alookup l k).isSome then
    l.map (fun p => if p.1 = k then (k, v) else p)
  else l ++ [(k, v)]

/-- Apply `f` to the element at index `i` (no-op when out of range);
models an in-place mutation of a heap cell. -/
def updateAt {α : Type} : List α → Nat → (α → α) → List α
  | [], _, _ => []
  | x :: xs, 0, f => f x :: xs
  | x :: xs, n + 1, f => x :: updateAt xs n f

/-- One process record, the inner dict created by `add_process`:
`{'name': name, 'status': 'running', 'resources': [], 'waiting_for': None}`.
The held resources are a Python list (duplicates and order preserved). -/
structure PRec where
  pname : String
  status : String
  resources : List String
  waiting : Option String
deriving DecidableEq, Repr

/-- The live `ProcessResourceTracker` state.  `prheap` / `rlheap` are the
heaps of process records and holder lists; `procs` and `ress` are the two
dicts, each mapping an identifier to the heap address of its record. -/
structure Tracker where
  prheap : List PRec
  rlheap : List (List Int)
  procs : List (Int × Nat)
  ress : List (String × Nat)
deriving DecidableEq, Repr

def emptyTracker : Tracker := ⟨[], [], [], []⟩

/-- Model of `add_process(pid, name)`: allocate a fresh record and bind `pid` to it
(overwriting any existing binding, which leaves the old record in the heap). -/
def addProcess (t : Tracker) (pid : Int) (nm : String) : Tracker :=
  { t with
    prheap := t.prheap ++ [⟨nm, "running", [], none⟩],
    procs := aupsert t.procs pid t.prheap.length }

/-- Model of `allocate_resource(pid, resource)`: if `pid` is registered, append `pid`
to `self.resources[resource]` (the defaultdict creates an empty list on a
missing key) and append `resource` to the process record's held list,
returning `True`; otherwise return `False` without any effect. -/
def allocateResource (t : Tracker) (pid : Int) (r : String) : Tracker × Bool :=
  match alookup t.procs pid with
  | none => (t, false)
  | some paddr =>
    let step : Tracker × Nat :=
      match alookup t.ress r with
      | some a => (t, a)
      | none =>
        ({ t with rlheap := t.rlheap ++ [[]],
                  ress := t.ress ++ [(r, t.rlheap.length)] },
         t.rlheap.length)
    let t2 := { step.1 with rlheap := updateAt step.1.rlheap step.2 (fun l => l ++ [pid]) }
    let f3 := fun (p : PRec) => { p with resources := p.resources ++ [r] }
    let t3 := { t2 with prheap := updateAt t2.prheap paddr f3 }
    (t3, true)

/-- Model of `set_waiting_for(pid, resource)`: if `pid` is registered, overwrite the
record's `waiting_for` field and return `True`; else return `False`. -/
def setWaitingFor (t : Tracker) (pid : Int) (r : String) : Tracker × Bool :=
  match alookup t.procs pid with
  | none => (t, false)
  | some paddr =>
    ({ t with prheap := updateAt t.prheap paddr (fun p => { p with waiting := some r }) },
     true)

/-- The value returned by `get_system_state`: shallow copies of the two
dicts (`self.processes.copy()` and `dict(self.resources)`), so it holds the
same heap addresses as the live store. -/
structure Snapshot where
  procs : List (Int × Nat)
  ress : List (String × Nat)
deriving DecidableEq, Repr

def getSystemState (t : Tracker) : Snapshot := ⟨t.procs, t.ress⟩

/-- Model of `clear_system()`: `self.processes.clear(); self.resources.clear()` —
only the outer dicts are emptied, heap records persist (and remain visible
through previously taken snapshots). -/
def clearSystem (t : Tracker) : Tracker := { t with procs := [], ress := [] }

/-- The held-resource list of `pid` as the live store sees it. -/
def heldView (t : Tracker) (pid : Int) : List String :=
  (((alookup t.procs pid).bind (fun a => t.prheap[a]?)).map PRec.resources).getD []

/-- The holder list of resource `r` as the live store sees it. -/
def holdersView (t : Tracker) (r : String) : List Int :=
  ((alookup t.ress r).bind (fun a => t.rlheap[a]?)).getD []

/-- The `waiting_for` field of `pid` as the live store sees it. -/
def waitingView (t : Tracker) (pid : Int) : Option String :=
  ((alookup t.procs pid).bind (fun a => t.prheap[a]?)).bind PRec.waiting

/-- Reading a process's held list through a previously taken snapshot,
dereferencing the snapshot's stored address in the current heap: this is
what `snapshot['processes'][pid]['resources']` evaluates to later. -/
def snapHeld (prheap : List PRec) (s : Snapshot) (pid : Int) : List String :=
  (((alookup s.procs pid).bind (fun a => prheap[a]?)).map PRec.resources).getD []

/-- Reading a process's `waiting_for` through a previously taken snapshot. -/
def snapWaiting (prheap : List PRec) (s : Snapshot) (pid : Int) : Option String :=
  ((alookup s.procs pid).bind (fun a => prheap[a]?)).bind PRec.waiting

/-- Reading a resource's holder list through a previously taken snapshot. -/
def snapHolders (rlheap : List (List Int)) (s : Snapshot) (r : String) : List Int :=
  ((alookup s.ress r).bind (fun a => rlheap[a]?)).getD []

/-- Graph node: `f"P{pid}"` or `f"R{rid}"`.  Process nodes always start with
`P` and resource nodes with `R`, so the two families never collide and a sum
type is a faithful rendering of the node strings. -/
inductive Node
  | P (pid : Int)
  | R (rid : String)
deriving DecidableEq, Repr

/-- Directed graph in node/edge insertion order, as `nx.DiGraph` presents it. -/
structure Graph where
  nodes : List Node
  edges : List (Node × Node)
deriving DecidableEq, Repr

def Graph.empty : Graph := ⟨[], []⟩

/-- Model of `graph.add_node`: no-op when the node is already present. -/
def addNode (g : Graph) (n : Node) : Graph :=
  if n ∈ g.nodes then g else { g with nodes := g.nodes ++ [n] }

/-- Model of `graph.add_edge`: registers both endpoints, then adds the edge unless it
already exists (a DiGraph has no parallel edges). -/
def addEdge (g : Graph) (u v : Node) : Graph :=
  let g1 := addNode (addNode g u) v
  if (u, v) ∈ g1.edges then g1 else { g1 with edges := g1.edges ++ [(u, v)] }

/-- The snapshot's process table fully dereferenced, in dict order, as the
detector's loops iterate it. -/
def snapProcs (prheap : List PRec) (s : Snapshot) : List (Int × PRec) :=
  s.procs.filterMap (fun pr => (prheap[pr.2]?).map (fun q => (pr.1, q)))

/-- Graph construction of `detect_deadlocks`: one `P` node per process, one
`R` node per resource key, a holds edge `P→R` per held-list entry and a
waits edge `R→P` when `waiting_for` is truthy (Python's `if
pdata['waiting_for']:` rejects both `None` and the empty string). -/
def buildGraph (ps : List (Int × PRec)) (rids : List String) : Graph :=
  let g0 := ps.foldl (fun g pr => addNode g (Node.P pr.1)) Graph.empty
  let g1 := rids.foldl (fun g rid => addNode g (Node.R rid)) g0
  ps.foldl (fun g pr =>
    let g2 := pr.2.resources.foldl (fun g rid => addEdge g (Node.P pr.1) (Node.R rid)) g
    match pr.2.waiting with
    | some w => if w = "" then g2 else addEdge g2 (Node.R w) (Node.P pr.1)
    | none => g2) g1

/-- The allocation graph `detect_deadlocks` builds from the tracker's
current state. -/
def graphOf (t : Tracker) : Graph :=
  let s := getSystemState t
  buildGraph (snapProcs t.prheap s) (s.ress.map (fun p => p.1))

def isEdge (g : Graph) (u v : Node) : Bool := decide ((u, v) ∈ g.edges)

/-- Consecutive pairs of the list are all edges of `g`. -/
def chainB (g : Graph) : List Node → Bool
  | [] => true
  | [_] => true
  | u :: v :: rest => isEdge g u v && chainB g (v :: rest)

/-- Holds when `c` is a nonempty closed walk of `g`: consecutive edges plus an edge
from the last node back to the first. -/
def closedWalkB (g : Graph) (c : List Node) : Bool :=
  match c with
  | [] => false
  | u :: _ => chainB g (c ++ [u])

/-- Holds when `c` is a simple cycle of `g`: a closed walk with no repeated node. -/
def isCycleListB (g : Graph) (c : List Node) : Bool :=
  closedWalkB g c && decide c.Nodup

/-- All nodes occurring in the graph (declared nodes and edge endpoints). -/
def nodesOf (g : Graph) : List Node :=
  (g.nodes ++ g.edges.map Prod.fst ++ g.edges.map Prod.snd).dedup

/-- All subsequences of a node list (every subset in order). -/
def subseqs : List Node → List (List Node)
  | [] => [[]]
  | x :: xs => subseqs xs ++ (subseqs xs).map (fun s => x :: s)

/-- All ways of inserting `a` into a list. -/
def insertsEverywhere (a : Node) : List Node → List (List Node)
  | [] => [[a]]
  | x :: xs => (a :: x :: xs) :: (insertsEverywhere a xs).map (fun l => x :: l)

/-- All permutations of a node list. -/
def permsOf : List Node → List (List Node)
  | [] => [[]]
  | x :: xs => (permsOf xs).flatMap (insertsEverywhere x)

/-- Every ordering of every node subset that forms a simple cycle: all
rotations of every simple cycle appear here. -/
def cycleCandidates (g : Graph) : List (List Node) :=
  ((subseqs (nodesOf g)).flatMap permsOf).filter (isCycleListB g)

/-- All rotations of `c` (index `c.length` included so that `[]` lists
itself). -/
def rotationsList (c : List Node) : List (List Node) :=
  (List.range (c.length + 1)).map (fun n => c.rotate n)

/-- Fuel-driven worker for `dedupRot`; the fuel only makes the recursion
structural and is always at least the list length when called. -/
def dedupRotAux : Nat → List (List Node) → List (List Node)
  | _, [] => []
  | 0, _ :: _ => []
  | fuel + 1, c :: rest =>
    c :: dedupRotAux fuel (rest.filter (fun d => !decide (d ∈ rotationsList c)))

/-- Keep one representative per rotation class, in first-appearance order. -/
def dedupRot (l : List (List Node)) : List (List Node) := dedupRotAux l.length l

/-- Model of `nx.simple_cycles`: every simple cycle of the graph, one
representative per rotation class. -/
def simpleCycles (g : Graph) : List (List Node) :=
  dedupRot (cycleCandidates g)

/-- One entry of `detection_history`: the qualifying cycles and the graph
(the wall-clock `time.strftime` string carries no checkable content and is
omitted). -/
structure DetectionRecord where
  deadlocks : List (List Node)
  graph : Graph
deriving DecidableEq, Repr

/-- The `DeadlockDetector`'s own state. -/
structure DetectorState where
  history : List DetectionRecord
deriving DecidableEq, Repr

/-- The cycles `detect_deadlocks` will report for the tracker's current
state: the simple cycles with at least 4 nodes. -/
def deadlocksOf (t : Tracker) : List (List Node) :=
  (simpleCycles (graphOf t)).filter (fun c => 4 ≤ c.length)

/-- Model of `detect_deadlocks()`: snapshot, build the graph, enumerate simple
cycles, keep those with `len(cycle) >= 4`; if any remain, append one record
to the history and return them, else return `None` (Python falls through to
`return None`, and the history is untouched). -/
def detect_deadlocks (t : Tracker) (d : DetectorState) :
    Option (List (List Node)) × DetectorState :=
  let dl := deadlocksOf t
  if dl.isEmpty then (none, d)
  else (some dl, ⟨d.history ++ [⟨dl, graphOf t⟩]⟩)

/-- The cycles a caller sees: `None` means none were reported. -/
def resultCycles (o : Option (List (List Node))) : List (List Node) := o.getD []

/-- One suggestion of `suggest_resolutions`; the heterogeneous Python dict
is split by its `'type'` field, keeping the `description`, `targets` and
`recommendation` entries. -/
inductive Resolution
  | process_termination (description : String) (targets : List Int)
      (recommendation : String)
  | resource_preemption (description : String) (targets : List String)
      (recommendation : String)
deriving DecidableEq, Repr

/-- Model of `set.add`: append unless already present (Python sets deduplicate;
only membership of the result is relied on by any theorem below). -/
def addUnique {α : Type} [DecidableEq α] (l : List α) (a : α) : List α :=
  if a ∈ l then l else l ++ [a]

/-- One iteration of the resolver's loop over the cycle's nodes: a `P` node
goes to `processes_in_deadlock`, an `R` node to `resources_in_deadlock`. -/
def resolverStep (acc : List Int × List String) (n : Node) : List Int × List String :=
  match n with
  | Node.P p => (addUnique acc.1 p, acc.2)
  | Node.R r => (acc.1, addUnique acc.2 r)

/-- The resolver's single loop over the cycle, collecting
`processes_in_deadlock` and `resources_in_deadlock`. -/
def collectSets (c : List Node) : List Int × List String :=
  c.foldl resolverStep ([], [])

/-- Python `min` over a nonempty collection of ints. -/
def listMin : List Int → Option Int
  | [] => none
  | x :: xs =>
    match listMin xs with
    | none => some x
    | some m => some (min x m)

/-- Model of `suggest_resolutions(deadlock)`: a `process_termination` entry when the
cycle contains process nodes (recommending the minimum pid) followed by a
`resource_preemption` entry when it contains resource nodes.  CPython's
`set.pop()` draws an unspecified element; it is modelled as the first
resource collected, and no theorem below uses more than membership of the
popped element. -/
def suggest_resolutions (deadlock : List Node) : List Resolution :=
  let sets := collectSets deadlock
  let procPart : List Resolution :=
    match listMin sets.1 with
    | some m =>
      [Resolution.process_termination
        "Terminate one process involved in the deadlock" sets.1
        ("Terminate process: " ++ toString m ++ " (lowest PID)")]
    | none => []
  let resPart : List Resolution :=
    match sets.2.head? with
    | some r =>
      [Resolution.resource_preemption
        "Preempt one resource involved in the deadlock" sets.2
        ("Preempt resource: " ++ r)]
    | none => []
  procPart ++ resPart

/-- States reachable from a fresh tracker by the store's public mutators. -/
inductive Reachable : Tracker → Prop
  | init : Reachable emptyTracker
  | add {t : Tracker} (pid : Int) (nm : String) :
      Reachable t → Reachable (addProcess t pid nm)
  | alloc {t : Tracker} (pid : Int) (r : String) :
      Reachable t → Reachable (allocateResource t pid r).1
  | wait {t : Tracker} (pid : Int) (r : String) :
      Reachable t → Reachable (setWaitingFor t pid r).1
  | clear {t : Tracker} : Reachable t → Reachable (clearSystem t)

/-- Structural invariant of reachable tracker states: all stored heap
addresses are in range, distinct identifiers are bound to distinct heap
cells, and every held resource is registered in the holder index. -/
structure Inv (t : Tracker) : Prop where
  procsLt : ∀ pr ∈ t.procs, pr.2 < t.prheap.length
  ressLt : ∀ pr ∈ t.ress, pr.2 < t.rlheap.length
  procsInj : ∀ p q, p ∈ t.procs → q ∈ t.procs → p.2 = q.2 → p.1 = q.1
  ressInj : ∀ p q, p ∈ t.ress → q ∈ t.ress → p.2 = q.2 → p.1 = q.1
  held : ∀ pid r, r ∈ heldView t pid → pid ∈ holdersView t r

/-- The classic two-process/two-resource scenario of §8 of the spec:
process 1 (A) holds resource X and waits for Y, process 2 (B) holds Y and
waits for X, and nothing else exists. -/
def tScenario : Tracker :=
  let t := addProcess emptyTracker 1 "A"
  let t := addProcess t 2 "B"
  let t := (allocateResource t 1 "X").1
  let t := (allocateResource t 2 "Y").1
  let t := (setWaitingFor t 1 "Y").1
  (setWaitingFor t 2 "X").1

/-- A single process holding and waiting for the same resource: the
allocation graph is the 2-node cycle P1 → RX → P1. -/
def tTwoCycle : Tracker :=
  let t := addProcess emptyTracker 1 "A"
  let t := (allocateResource t 1 "X").1
  (setWaitingFor t 1 "X").1

/-- Two node-disjoint classic deadlocks: processes 1, 2 over X, Y and
processes 3, 4 over Z, W. -/
def tTwoDeadlocks : Tracker :=
  let t := addProcess emptyTracker 1 "A"
  let t := addProcess t 2 "B"
  let t := addProcess t 3 "C"
  let t := addProcess t 4 "D"
  let t := (allocateResource t 1 "X").1
  let t := (allocateResource t 2 "Y").1
  let t := (setWaitingFor t 1 "Y").1
  let t := (setWaitingFor t 2 "X").1
  let t := (allocateResource t 3 "Z").1
  let t := (allocateResource t 4 "W").1
  let t := (setWaitingFor t 3 "W").1
  (setWaitingFor t 4 "Z").1

/-- Store with one process that holds X; the base state of the snapshot
aliasing scenario. -/
def tSnapBase : Tracker := (allocateResource (addProcess emptyTracker 1 "A") 1 "X").1

/-- Snapshot taken of `tSnapBase` before any further mutation. -/
def sSnap : Snapshot := getSystemState tSnapBase

/-- State `tSnapBase` after a second `allocate_resource(1, "X")` and a
`set_waiting_for(1, "Q")`, both performed after `sSnap` was taken. -/
def tSnapAfter : Tracker :=
  (setWaitingFor ((allocateResource tSnapBase 1 "X").1) 1 "Q").1

/-- Re-registering pid 1 after it allocated X: `add_process` resets the
process record but leaves the old entry in the holder index. -/
def tReAdd : Tracker := addProcess tSnapBase 1 "A"

/-- A detector that has not yet recorded anything. -/
def emptyDetector : DetectorState := ⟨[]⟩

/-! Basic lemmas about the list-level helpers. -/

theorem updateAt_length {α : Type} (l : List α) (i : Nat) (f : α → α) :
    (updateAt l i f).length = l.length := by
  induction l generalizing i with
  | nil => rfl
  | cons x xs ih =>
    cases i with
    | zero => rfl
    | succ n => simpa [updateAt] using ih n

theorem updateAt_getElem? {α : Type} (l : List α) (i : Nat) (f : α → α) (a : Nat) :
    (updateAt l i f)[a]? = if a = i then (l[i]?).map f else l[a]? := by
  induction l generalizing i a with
  | nil => simp [updateAt]
  | cons x xs ih =>
    cases i with
    | zero =>
      cases a with
      | zero => simp [updateAt]
      | succ b => simp [updateAt]
    | succ n =>
      cases a with
      | zero => simp [updateAt]
      | succ b =>
        simp only [updateAt, List.getElem?_cons_succ]
        rw [ih n b]
        by_cases h : b = n <;> simp [h]

theorem alookup_nil {κ ν : Type} [DecidableEq κ] (k : κ) :
    alookup ([] : List (κ × ν)) k = none := rfl

theorem alookup_eq_none_iff {κ ν : Type} [DecidableEq κ] (l : List (κ × ν)) (k : κ) :
    alookup l k = none ↔ ∀ x ∈ l, x.1 ≠ k := by
  simp [alookup, List.find?_eq_none]

theorem mem_of_alookup {κ ν : Type} [DecidableEq κ] {l : List (κ × ν)} {k : κ} {v : ν}
    (h : alookup l k = some v) : (k, v) ∈ l := by
  simp only [alookup, Option.map_eq_some'] at h
  obtain ⟨p, hp, rfl⟩ := h
  have hmem := List.mem_of_find?_eq_some hp
  have hkey := List.find?_some hp
  simp only [decide_eq_true_eq] at hkey
  have : p = (k, p.2) := by
    cases p; simp_all
  rwa [this] at hmem

theorem alookup_append_left {κ ν : Type} [DecidableEq κ] {l l' : List (κ × ν)} {k : κ}
    {v : ν} (h : alookup l k = some v) : alookup (l ++ l') k = some v := by
  induction l with
  | nil => simp [alookup] at h
  | cons x xs ih =>
    simp only [alookup, List.find?] at h ⊢
    cases hx : decide (x.1 = k) with
    | false => simp only [hx] at h ⊢; exact ih h
    | true => simp only [hx] at h ⊢; exact h

theorem alookup_append_right {κ ν : Type} [DecidableEq κ] {l l' : List (κ × ν)} {k : κ}
    (h : alookup l k = none) : alookup (l ++ l') k = alookup l' k := by
  induction l with
  | nil => simp
  | cons x xs ih =>
    simp only [alookup, List.find?] at h ⊢
    cases hx : decide (x.1 = k) with
    | false => simp only [hx] at h ⊢; exact ih h
    | true => simp [hx] at h

theorem alookup_singleton {κ ν : Type} [DecidableEq κ] (k : κ) (v : ν) :
    alookup [(k, v)] k = some v := by
  simp [alookup, List.find?]

theorem alookup_map_overwrite {κ ν : Type} [DecidableEq κ] (l : List (κ × ν)) (k : κ)
    (v : ν) (hw : (alookup l k).isSome = true) :
    alookup (l.map (fun p => if p.1 = k then (k, v) else p)) k = some v := by
  induction l with
  | nil => simp [alookup] at hw
  | cons x xs ih =>
    by_cases hxk : x.1 = k
    · simp [alookup, List.find?, hxk]
    · simp only [List.map_cons, if_neg hxk]
      simp only [alookup, List.find?] at hw ⊢
      have hd : decide (x.1 = k) = false := by simp [hxk]
      simp only [hd] at hw ⊢
      exact ih hw

theorem alookup_map_overwrite_ne {κ ν : Type} [DecidableEq κ] (l : List (κ × ν))
    (k k' : κ) (v : ν) (hne : k' ≠ k) :
    alookup (l.map (fun p => if p.1 = k then (k, v) else p)) k' = alookup l k' := by
  induction l with
  | nil => rfl
  | cons x xs ih =>
    by_cases hxk : x.1 = k
    · have h1 : decide ((k : κ) = k') = false := by
        simp; exact fun h => hne h.symm
      have h2 : decide (x.1 = k') = false := by
        simp [hxk]; exact fun h => hne h.symm
      simp only [List.map_cons, if_pos hxk, alookup, List.find?, h1, h2]
      exact ih
    · simp only [List.map_cons, if_neg hxk, alookup, List.find?]
      cases hx : decide (x.1 = k') with
      | false => exact ih
      | true => rfl

theorem alookup_aupsert_self {κ ν : Type} [DecidableEq κ] (l : List (κ × ν)) (k : κ)
    (v : ν) : alookup (aupsert l k v) k = some v := by
  unfold aupsert
  cases ho : alookup l k with
  | none =>
    rw [if_neg (by simp [ho]), alookup_append_right ho, alookup_singleton]
  | some w =>
    rw [if_pos (by simp [ho])]
    exact alookup_map_overwrite l k v (by simp [ho])

theorem alookup_aupsert_ne {κ ν : Type} [DecidableEq κ] (l : List (κ × ν)) (k k' : κ)
    (v : ν) (hne : k' ≠ k) : alookup (aupsert l k v) k' = alookup l k' := by
  unfold aupsert
  cases ho : alookup l k with
  | none =>
    rw [if_neg (by simp [ho])]
    cases ho' : alookup l k' with
    | none =>
      rw [alookup_append_right ho']
      have hkk' : decide ((k : κ) = k') = false :=
        decide_eq_false (fun h => hne h.symm)
      simp [alookup, List.find?, hkk']
    | some w => exact alookup_append_left ho'
  | some w =>
    rw [if_pos (by simp [ho])]
    exact alookup_map_overwrite_ne l k k' v hne

theorem mem_aupsert {κ ν : Type} [DecidableEq κ] {l : List (κ × ν)} {k : κ} {v : ν}
    {x : κ × ν} (h : x ∈ aupsert l k v) : x = (k, v) ∨ (x ∈ l ∧ x.1 ≠ k) := by
  unfold aupsert at h
  cases ho : alookup l k with
  | some w =>
    rw [if_pos (by simp [ho])] at h
    simp only [List.mem_map] at h
    obtain ⟨y, hy, hxy⟩ := h
    by_cases hyk : y.1 = k
    · left; rw [← hxy]; simp [hyk]
    · right; rw [← hxy]; simp only [if_neg hyk]; exact ⟨hy, hyk⟩
  | none =>
    rw [if_neg (by simp [ho])] at h
    simp only [List.mem_append, List.mem_singleton] at h
    rcases h with h | h
    · exact Or.inr ⟨h, (alookup_eq_none_iff l k).mp ho x h⟩
    · exact Or.inl h

theorem getElem?_concat_length {α : Type} (l : List α) (x : α) :
    (l ++ [x])[l.length]? = some x := by
  rw [List.getElem?_append_right (Nat.le_refl _)]
  simp

theorem heldView_addProcess_self (t : Tracker) (pid : Int) (nm : String) :
    heldView (addProcess t pid nm) pid = [] := by
  simp [heldView, addProcess, alookup_aupsert_self, getElem?_concat_length]

theorem heldView_addProcess_other (t : Tracker) (hInv : Inv t) {pid pid' : Int}
    (nm : String) (hne : pid' ≠ pid) :
    heldView (addProcess t pid nm) pid' = heldView t pid' := by
  simp only [heldView, addProcess, alookup_aupsert_ne _ _ _ _ hne]
  cases ho : alookup t.procs pid' with
  | none => rfl
  | some a =>
    have ha : a < t.prheap.length := hInv.procsLt _ (mem_of_alookup ho)
    simp [List.getElem?_append_left ha]

theorem holdersView_addProcess (t : Tracker) (pid : Int) (nm : String) (r : String) :
    holdersView (addProcess t pid nm) r = holdersView t r := rfl

theorem setWaitingFor_unknown (t : Tracker) (pid : Int) (r : String)
    (h : alookup t.procs pid = none) : setWaitingFor t pid r = (t, false) := by
  simp [setWaitingFor, h]

theorem allocateResource_unknown (t : Tracker) (pid : Int) (r : String)
    (h : alookup t.procs pid = none) : allocateResource t pid r = (t, false) := by
  simp [allocateResource, h]

theorem setWaiting_procs (t : Tracker) (pid : Int) (r : String) :
    ((setWaitingFor t pid r).1).procs = t.procs := by
  cases ho : alookup t.procs pid <;> simp [setWaitingFor, ho]

theorem setWaiting_ress (t : Tracker) (pid : Int) (r : String) :
    ((setWaitingFor t pid r).1).ress = t.ress := by
  cases ho : alookup t.procs pid <;> simp [setWaitingFor, ho]

theorem setWaiting_rlheap (t : Tracker) (pid : Int) (r : String) :
    ((setWaitingFor t pid r).1).rlheap = t.rlheap := by
  cases ho : alookup t.procs pid <;> simp [setWaitingFor, ho]

theorem setWaiting_prheap_resources (t : Tracker) (pid : Int) (r : String) (a : Nat) :
    (((setWaitingFor t pid r).1).prheap[a]?).map PRec.resources =
      (t.prheap[a]?).map PRec.resources := by
  cases ho : alookup t.procs pid with
  | none => simp [setWaitingFor, ho]
  | some paddr =>
    simp only [setWaitingFor, ho, updateAt_getElem?]
    by_cases ha : a = paddr
    · subst ha
      rw [if_pos rfl]
      cases t.prheap[a]? <;> simp
    · rw [if_neg ha]

theorem heldView_setWaiting (t : Tracker) (pid pid' : Int) (r : String) :
    heldView (setWaitingFor t pid r).1 pid' = heldView t pid' := by
  simp only [heldView, setWaiting_procs]
  cases ho : alookup t.procs pid' with
  | none => rfl
  | some a =>
    simp only [Option.some_bind]
    rw [setWaiting_prheap_resources t pid r a]

theorem holdersView_setWaiting (t : Tracker) (pid : Int) (r r' : String) :
    holdersView (setWaitingFor t pid r).1 r' = holdersView t r' := by
  simp only [holdersView, setWaiting_ress, setWaiting_rlheap]

theorem heldView_clear (t : Tracker) (pid : Int) : heldView (clearSystem t) pid = [] := rfl

/-! Effect of a successful `allocate_resource` on the two views. -/

theorem alloc_procs (t : Tracker) (pid : Int) (r : String) :
    ((allocateResource t pid r).1).procs = t.procs := by
  cases ho : alookup t.procs pid with
  | none => simp [allocateResource, ho]
  | some paddr => cases ho2 : alookup t.ress r <;> simp [allocateResource, ho, ho2]

theorem alloc_prheap (t : Tracker) {pid : Int} {paddr : Nat} (r : String)
    (h : alookup t.procs pid = some paddr) :
    ((allocateResource t pid r).1).prheap =
      updateAt t.prheap paddr (fun p => { p with resources := p.resources ++ [r] }) := by
  cases ho2 : alookup t.ress r <;> simp [allocateResource, h, ho2]

theorem heldView_alloc_self (t : Tracker) (hInv : Inv t) {pid : Int} {paddr : Nat}
    (r : String) (h : alookup t.procs pid = some paddr) :
    heldView (allocateResource t pid r).1 pid = heldView t pid ++ [r] := by
  have hlt : paddr < t.prheap.length := hInv.procsLt _ (mem_of_alookup h)
  simp only [heldView, alloc_procs, alloc_prheap t r h, h, Option.some_bind,
    updateAt_getElem?, if_pos rfl]
  rw [List.getElem?_eq_getElem hlt]
  simp

theorem heldView_alloc_other (t : Tracker) (hInv : Inv t) {pid pid' : Int} {paddr : Nat}
    (r : String) (h : alookup t.procs pid = some paddr) (hne : pid' ≠ pid) :
    heldView (allocateResource t pid r).1 pid' = heldView t pid' := by
  simp only [heldView, alloc_procs, alloc_prheap t r h]
  cases ho : alookup t.procs pid' with
  | none => rfl
  | some a =>
    have hap : a ≠ paddr := by
      intro hcontra
      exact hne (hInv.procsInj (pid', a) (pid, paddr)
        (mem_of_alookup ho) (mem_of_alookup h) hcontra)
    simp only [Option.some_bind, updateAt_getElem?, if_neg hap]

theorem alloc_ress_rlheap (t : Tracker) {pid : Int} {paddr : Nat} (r : String)
    (h : alookup t.procs pid = some paddr) :
    (match alookup t.ress r with
     | some raddr =>
       ((allocateResource t pid r).1).ress = t.ress ∧
       ((allocateResource t pid r).1).rlheap = updateAt t.rlheap raddr (fun l => l ++ [pid])
     | none =>
       ((allocateResource t pid r).1).ress = t.ress ++ [(r, t.rlheap.length)] ∧
       ((allocateResource t pid r).1).rlheap =
         updateAt (t.rlheap ++ [[]]) t.rlheap.length (fun l => l ++ [pid]) : Prop) := by
  cases ho2 : alookup t.ress r <;> simp [allocateResource, h, ho2]

theorem holdersView_alloc_self (t : Tracker) (hInv : Inv t) {pid : Int} {paddr : Nat}
    (r : String) (h : alookup t.procs pid = some paddr) :
    holdersView (allocateResource t pid r).1 r = holdersView t r ++ [pid] := by
  have heff := alloc_ress_rlheap t r h
  cases ho2 : alookup t.ress r with
  | some raddr =>
    rw [ho2] at heff
    have hlt : raddr < t.rlheap.length := hInv.ressLt _ (mem_of_alookup ho2)
    simp only [holdersView, heff.1, heff.2, ho2, Option.some_bind,
      updateAt_getElem?, if_pos rfl]
    rw [List.getElem?_eq_getElem hlt]
    simp
  | none =>
    rw [ho2] at heff
    have hnew : alookup ((allocateResource t pid r).1).ress r =
        some t.rlheap.length := by
      rw [heff.1, alookup_append_right ho2, alookup_singleton]
    simp only [holdersView, hnew, heff.2, ho2, Option.some_bind,
      updateAt_getElem?, if_pos rfl, getElem?_concat_length]
    simp

theorem holdersView_alloc_ne (t : Tracker) (hInv : Inv t) {pid : Int} {paddr : Nat}
    {r r' : String} (h : alookup t.procs pid = some paddr) (hne : r' ≠ r) :
    holdersView (allocateResource t pid r).1 r' = holdersView t r' := by
  have heff := alloc_ress_rlheap t r h
  cases ho2 : alookup t.ress r with
  | some raddr =>
    rw [ho2] at heff
    simp only [holdersView, heff.1, heff.2]
    cases ho3 : alookup t.ress r' with
    | none => rfl
    | some a =>
      have har : a ≠ raddr := by
        intro hcontra
        exact hne (hInv.ressInj (r', a) (r, raddr)
          (mem_of_alookup ho3) (mem_of_alookup ho2) hcontra)
      simp only [Option.some_bind, updateAt_getElem?, if_neg har]
  | none =>
    rw [ho2] at heff
    simp only [holdersView, heff.1, heff.2]
    cases ho3 : alookup t.ress r' with
    | none =>
      have hsing : alookup [(r, t.rlheap.length)] r' = none := by
        have hrr' : decide ((r : String) = r') = false :=
          decide_eq_false (fun hh => hne hh.symm)
        simp [alookup, List.find?, hrr']
      rw [alookup_append_right ho3, hsing]
      rfl
    | some a =>
      have ha : a < t.rlheap.length := hInv.ressLt _ (mem_of_alookup ho3)
      have hane : a ≠ t.rlheap.length := Nat.ne_of_lt ha
      rw [alookup_append_left ho3]
      simp only [Option.some_bind, updateAt_getElem?, if_neg hane,
        List.getElem?_append_left ha]

/-! Preservation of the invariant by every store operation. -/

theorem inv_empty : Inv emptyTracker := by
  refine ⟨?_, ?_, ?_, ?_, ?_⟩
  · intro pr hpr; simp [emptyTracker] at hpr
  · intro pr hpr; simp [emptyTracker] at hpr
  · intro p q hp _ _; simp [emptyTracker] at hp
  · intro p q hp _ _; simp [emptyTracker] at hp
  · intro pid r hr; simp [emptyTracker, heldView, alookup] at hr

theorem setWaiting_prheap_length (t : Tracker) (pid : Int) (r : String) :
    ((setWaitingFor t pid r).1).prheap.length = t.prheap.length := by
  cases ho : alookup t.procs pid <;> simp [setWaitingFor, ho, updateAt_length]

theorem inv_addProcess (t : Tracker) (hInv : Inv t) (pid : Int) (nm : String) :
    Inv (addProcess t pid nm) := by
  have hlen : (addProcess t pid nm).prheap.length = t.prheap.length + 1 := by
    simp [addProcess]
  refine ⟨?_, ?_, ?_, ?_, ?_⟩
  · intro pr hpr
    rw [hlen]
    rcases mem_aupsert hpr with h | ⟨h, _⟩
    · subst h; exact Nat.lt_succ_self _
    · exact Nat.lt_succ_of_lt (hInv.procsLt _ h)
  · intro pr hpr
    exact hInv.ressLt _ hpr
  · intro p q hp hq hpq
    rcases mem_aupsert hp with h1 | ⟨h1, hk1⟩ <;> rcases mem_aupsert hq with h2 | ⟨h2, hk2⟩
    · rw [h1, h2]
    · exfalso
      have := hInv.procsLt _ h2
      rw [h1] at hpq
      simp only at hpq
      omega
    · exfalso
      have := hInv.procsLt _ h1
      rw [h2] at hpq
      simp only at hpq
      omega
    · exact hInv.procsInj p q h1 h2 hpq
  · intro p q hp hq hpq
    exact hInv.ressInj p q hp hq hpq
  · intro pid' r hr
    by_cases hp : pid' = pid
    · subst hp
      rw [heldView_addProcess_self] at hr
      simp at hr
    · rw [heldView_addProcess_other t hInv nm hp] at hr
      rw [holdersView_addProcess]
      exact hInv.held pid' r hr

theorem inv_setWaiting (t : Tracker) (hInv : Inv t) (pid : Int) (r : String) :
    Inv (setWaitingFor t pid r).1 := by
  refine ⟨?_, ?_, ?_, ?_, ?_⟩
  · intro pr hpr
    rw [setWaiting_procs] at hpr
    rw [setWaiting_prheap_length]
    exact hInv.procsLt _ hpr
  · intro pr hpr
    rw [setWaiting_ress] at hpr
    rw [setWaiting_rlheap]
    exact hInv.ressLt _ hpr
  · intro p q hp hq hpq
    rw [setWaiting_procs] at hp hq
    exact hInv.procsInj p q hp hq hpq
  · intro p q hp hq hpq
    rw [setWaiting_ress] at hp hq
    exact hInv.ressInj p q hp hq hpq
  · intro pid' r' hr
    rw [heldView_setWaiting] at hr
    rw [holdersView_setWaiting]
    exact hInv.held pid' r' hr

theorem inv_clear (t : Tracker) : Inv (clearSystem t) := by
  refine ⟨?_, ?_, ?_, ?_, ?_⟩
  · intro pr hpr; simp [clearSystem] at hpr
  · intro pr hpr; simp [clearSystem] at hpr
  · intro p q hp _ _; simp [clearSystem] at hp
  · intro p q hp _ _; simp [clearSystem] at hp
  · intro pid r hr; rw [heldView_clear] at hr; simp at hr

theorem alloc_prheap_length (t : Tracker) (pid : Int) (r : String) :
    ((allocateResource t pid r).1).prheap.length = t.prheap.length := by
  cases ho : alookup t.procs pid with
  | none => rw [allocateResource_unknown t pid r ho]
  | some paddr => rw [alloc_prheap t r ho, updateAt_length]

theorem inv_alloc (t : Tracker) (hInv : Inv t) (pid : Int) (r : String) :
    Inv (allocateResource t pid r).1 := by
  cases ho : alookup t.procs pid with
  | none => rw [allocateResource_unknown t pid r ho]; exact hInv
  | some paddr =>
    have heff := alloc_ress_rlheap t r ho
    refine ⟨?_, ?_, ?_, ?_, ?_⟩
    · intro pr hpr
      rw [alloc_procs] at hpr
      rw [alloc_prheap_length]
      exact hInv.procsLt _ hpr
    · intro pr hpr
      cases ho2 : alookup t.ress r with
      | some raddr =>
        rw [ho2] at heff
        rw [heff.1] at hpr
        rw [heff.2, updateAt_length]
        exact hInv.ressLt _ hpr
      | none =>
        rw [ho2] at heff
        rw [heff.1] at hpr
        rw [heff.2, updateAt_length]
        simp only [List.length_append, List.length_cons, List.length_nil]
        rcases List.mem_append.mp hpr with h | h
        · have := hInv.ressLt _ h; omega
        · simp only [List.mem_singleton] at h; subst h; simp
    · intro p q hp hq hpq
      rw [alloc_procs] at hp hq
      exact hInv.procsInj p q hp hq hpq
    · intro p q hp hq hpq
      cases ho2 : alookup t.ress r with
      | some raddr =>
        rw [ho2] at heff
        rw [heff.1] at hp hq
        exact hInv.ressInj p q hp hq hpq
      | none =>
        rw [ho2] at heff
        rw [heff.1] at hp hq
        rcases List.mem_append.mp hp with h1 | h1 <;>
          rcases List.mem_append.mp hq with h2 | h2
        · exact hInv.ressInj p q h1 h2 hpq
        · exfalso
          simp only [List.mem_singleton] at h2
          have := hInv.ressLt _ h1
          rw [h2] at hpq
          simp only at hpq
          omega
        · exfalso
          simp only [List.mem_singleton] at h1
          have := hInv.ressLt _ h2
          rw [h1] at hpq
          simp only at hpq
          omega
        · simp only [List.mem_singleton] at h1 h2
          rw [h1, h2]
    · intro pid' r' hr
      by_cases hp : pid' = pid
      · subst hp
        rw [heldView_alloc_self t hInv r ho] at hr
        rcases List.mem_append.mp hr with h | h
        · have hold := hInv.held pid' r' h
          by_cases hrr : r' = r
          · subst hrr
            rw [holdersView_alloc_self t hInv r' ho]
            exact List.mem_append.mpr (Or.inl hold)
          · rw [holdersView_alloc_ne t hInv ho hrr]
            exact hold
        · simp only [List.mem_singleton] at h
          subst h
          rw [holdersView_alloc_self t hInv r' ho]
          simp
      · rw [heldView_alloc_other t hInv r ho hp] at hr
        have hold := hInv.held pid' r' hr
        by_cases hrr : r' = r
        · subst hrr
          rw [holdersView_alloc_self t hInv r' ho]
          exact List.mem_append.mpr (Or.inl hold)
        · rw [holdersView_alloc_ne t hInv ho hrr]
          exact hold

theorem reachable_inv {t : Tracker} (h : Reachable t) : Inv t := by
  induction h with
  | init => exact inv_empty
  | add pid nm _ ih => exact inv_addProcess _ ih pid nm
  | alloc pid r _ ih => exact inv_alloc _ ih pid r
  | wait pid r _ ih => exact inv_setWaiting _ ih pid r
  | clear _ ih => exact inv_clear _

/-! Soundness and completeness of the simple-cycle enumeration. -/

theorem closedWalkB_no_edges (g : Graph) (h : g.edges = []) (c : List Node) :
    closedWalkB g c = false := by
  cases c with
  | nil => rfl
  | cons u rest =>
    cases rest with
    | nil => simp [closedWalkB, chainB, isEdge, h]
    | cons v rest' => simp [closedWalkB, chainB, isEdge, h]

theorem isCycleListB_closedWalk {g : Graph} {c : List Node}
    (h : isCycleListB g c = true) : closedWalkB g c = true := by
  rw [isCycleListB, Bool.and_eq_true] at h
  exact h.1

theorem isCycleListB_nodup {g : Graph} {c : List Node}
    (h : isCycleListB g c = true) : c.Nodup := by
  rw [isCycleListB, Bool.and_eq_true] at h
  exact of_decide_eq_true h.2

theorem chain_sources (g : Graph) :
    ∀ l : List Node, chainB g l = true → ∀ x ∈ l.dropLast, ∃ y, isEdge g x y = true := by
  intro l
  induction l with
  | nil => intro _ x hx; simp at hx
  | cons u rest ih =>
    intro h x hx
    cases rest with
    | nil => simp at hx
    | cons v rest' =>
      rw [List.dropLast_cons₂] at hx
      have h1 : isEdge g u v = true ∧ chainB g (v :: rest') = true := by
        rw [← Bool.and_eq_true]
        exact h
      rcases List.mem_cons.mp hx with hxu | hx'
      · exact ⟨v, hxu ▸ h1.1⟩
      · exact ih h1.2 x hx'

theorem closedWalk_nodes_sub {g : Graph} {c : List Node}
    (h : closedWalkB g c = true) : ∀ x ∈ c, x ∈ nodesOf g := by
  intro x hx
  cases hc : c with
  | nil => subst hc; simp at hx
  | cons u rest =>
    subst hc
    have hchain : chainB g ((u :: rest) ++ [u]) = true := h
    have hx' : x ∈ ((u :: rest) ++ [u]).dropLast := by
      rw [List.dropLast_concat]
      exact hx
    obtain ⟨y, hy⟩ := chain_sources g _ hchain x hx'
    have hmem : (x, y) ∈ g.edges := of_decide_eq_true hy
    unfold nodesOf
    rw [List.mem_dedup]
    refine List.mem_append.mpr (Or.inl (List.mem_append.mpr (Or.inr ?_)))
    exact List.mem_map.mpr ⟨(x, y), hmem, rfl⟩

theorem insertsEverywhere_complete (x : Node) :
    ∀ c₁ c₂ : List Node, (c₁ ++ x :: c₂) ∈ insertsEverywhere x (c₁ ++ c₂) := by
  intro c₁
  induction c₁ with
  | nil =>
    intro c₂
    simp only [List.nil_append]
    cases c₂ with
    | nil => simp [insertsEverywhere]
    | cons y ys => exact List.mem_cons_self _ _
  | cons y ys ih =>
    intro c₂
    simp only [List.cons_append, insertsEverywhere]
    refine List.mem_cons_of_mem _ ?_
    exact List.mem_map.mpr ⟨ys ++ x :: c₂, ih c₂, rfl⟩

theorem permsOf_complete : ∀ s c : List Node, c.Perm s → c ∈ permsOf s := by
  intro s
  induction s with
  | nil =>
    intro c hc
    rw [List.perm_nil] at hc
    subst hc
    simp [permsOf]
  | cons x xs ih =>
    intro c hc
    have hx : x ∈ c := hc.symm.subset (List.mem_cons_self _ _)
    obtain ⟨c₁, c₂, rfl⟩ := List.append_of_mem hx
    have hmid : (c₁ ++ x :: c₂).Perm (x :: (c₁ ++ c₂)) := List.perm_middle
    have h2 : (c₁ ++ c₂).Perm xs := (List.perm_cons x).mp (hmid.symm.trans hc)
    simp only [permsOf]
    exact List.mem_flatMap.mpr ⟨c₁ ++ c₂, ih _ h2, insertsEverywhere_complete x c₁ c₂⟩

theorem filter_mem_subseqs (p : Node → Bool) :
    ∀ l : List Node, l.filter p ∈ subseqs l := by
  intro l
  induction l with
  | nil => simp [subseqs]
  | cons x xs ih =>
    simp only [subseqs]
    cases hp : p x with
    | true =>
      simp only [List.filter_cons, hp, if_pos rfl]
      exact List.mem_append.mpr (Or.inr (List.mem_map.mpr ⟨xs.filter p, ih, rfl⟩))
    | false =>
      simp only [List.filter_cons, hp]
      exact List.mem_append.mpr (Or.inl ih)

theorem mem_cycleCandidates {g : Graph} {c : List Node}
    (h : isCycleListB g c = true) : c ∈ cycleCandidates g := by
  unfold cycleCandidates
  rw [List.mem_filter]
  refine ⟨?_, h⟩
  have hnd : c.Nodup := isCycleListB_nodup h
  have hsub : ∀ x ∈ c, x ∈ nodesOf g := closedWalk_nodes_sub (isCycleListB_closedWalk h)
  have hperm : c.Perm ((nodesOf g).filter (fun x => decide (x ∈ c))) := by
    refine List.perm_of_nodup_nodup_toFinset_eq hnd
      (List.Nodup.filter _ (List.nodup_dedup _)) ?_
    refine List.toFinset.ext ?_
    intro a
    simp only [List.mem_filter, List.mem_dedup, decide_eq_true_eq]
    exact ⟨fun ha => ⟨hsub a ha, ha⟩, fun ha => ha.2⟩
  exact List.mem_flatMap.mpr
    ⟨(nodesOf g).filter (fun x => decide (x ∈ c)), filter_mem_subseqs _ _,
      permsOf_complete _ c hperm⟩

theorem exists_rotate_of_mem_rotationsList {c d : List Node}
    (h : d ∈ rotationsList c) : ∃ n, c.rotate n = d := by
  unfold rotationsList at h
  obtain ⟨n, _, hn⟩ := List.mem_map.mp h
  exact ⟨n, hn⟩

theorem rotate_back {c y : List Node} (n : Nat) (h : y.rotate n = c) :
    ∃ m, c.rotate m = y := by
  by_cases hy : y = []
  · subst hy
    refine ⟨0, ?_⟩
    rw [← h]
    simp
  · have hpos : 0 < y.length := List.length_pos.mpr hy
    have hlt : n % y.length < y.length := Nat.mod_lt _ hpos
    refine ⟨y.length - n % y.length, ?_⟩
    rw [← h, ← List.rotate_mod y n, List.rotate_rotate]
    have hsum : n % y.length + (y.length - n % y.length) = y.length := by omega
    rw [hsum, List.rotate_length]

theorem dedupRotAux_subset (fuel : Nat) :
    ∀ l : List (List Node), ∀ x ∈ dedupRotAux fuel l, x ∈ l := by
  induction fuel with
  | zero =>
    intro l x hx
    cases l with
    | nil => simp [dedupRotAux] at hx
    | cons c rest => simp [dedupRotAux] at hx
  | succ n ih =>
    intro l x hx
    cases l with
    | nil => simp [dedupRotAux] at hx
    | cons c rest =>
      simp only [dedupRotAux] at hx
      rcases List.mem_cons.mp hx with h | h
      · exact h ▸ List.mem_cons_self _ _
      · exact List.mem_cons_of_mem _ (List.mem_of_mem_filter (ih _ x h))

theorem dedupRotAux_complete (fuel : Nat) :
    ∀ l : List (List Node), l.length ≤ fuel →
    ∀ x ∈ l, ∃ y ∈ dedupRotAux fuel l, ∃ n, y.rotate n = x := by
  induction fuel with
  | zero =>
    intro l hlen x hx
    rw [Nat.le_zero, List.length_eq_zero] at hlen
    subst hlen
    simp at hx
  | succ n ih =>
    intro l hlen x hx
    cases l with
    | nil => simp at hx
    | cons c rest =>
      rcases List.mem_cons.mp hx with h | h
      · refine ⟨c, ?_, 0, ?_⟩
        · simp only [dedupRotAux]; exact List.mem_cons_self _ _
        · rw [List.rotate_zero, h]
      · by_cases hrot : x ∈ rotationsList c
        · obtain ⟨m, hm⟩ := exists_rotate_of_mem_rotationsList hrot
          refine ⟨c, ?_, m, hm⟩
          simp only [dedupRotAux]; exact List.mem_cons_self _ _
        · have hx' : x ∈ rest.filter (fun d => !decide (d ∈ rotationsList c)) := by
            rw [List.mem_filter]
            exact ⟨h, by simp [hrot]⟩
          have hlen' : (rest.filter (fun d => !decide (d ∈ rotationsList c))).length ≤ n := by
            have h1 := List.length_filter_le (fun d => !decide (d ∈ rotationsList c)) rest
            simp only [List.length_cons] at hlen
            omega
          obtain ⟨y, hy, m, hm⟩ := ih _ hlen' x hx'
          refine ⟨y, ?_, m, hm⟩
          simp only [dedupRotAux]
          exact List.mem_cons_of_mem _ hy

theorem dedupRot_subset (l : List (List Node)) : ∀ x ∈ dedupRot l, x ∈ l :=
  dedupRotAux_subset l.length l

theorem dedupRot_complete (l : List (List Node)) :
    ∀ x ∈ l, ∃ y ∈ dedupRot l, ∃ n, y.rotate n = x :=
  dedupRotAux_complete l.length l (Nat.le_refl _)

theorem simpleCycles_sound {g : Graph} {c : List Node} (h : c ∈ simpleCycles g) :
    isCycleListB g c = true :=
  (List.mem_filter.mp (dedupRot_subset _ _ h)).2

theorem simpleCycles_complete {g : Graph} {c : List Node}
    (h : isCycleListB g c = true) : ∃ y ∈ simpleCycles g, ∃ n, c.rotate n = y := by
  obtain ⟨y, hy, n, hn⟩ := dedupRot_complete _ c (mem_cycleCandidates h)
  obtain ⟨m, hm⟩ := rotate_back n hn
  exact ⟨y, hy, m, hm⟩

theorem mem_deadlocksOf {t : Tracker} {c : List Node} :
    c ∈ deadlocksOf t ↔ c ∈ simpleCycles (graphOf t) ∧ 4 ≤ c.length := by
  simp [deadlocksOf, List.mem_filter]

theorem mem_resultCycles {t : Tracker} {d : DetectorState} {c : List Node} :
    c ∈ resultCycles (detect_deadlocks t d).1 ↔ c ∈ deadlocksOf t := by
  unfold detect_deadlocks resultCycles
  by_cases h : (deadlocksOf t).isEmpty
  · rw [List.isEmpty_iff] at h
    simp [h]
  · simp [h]

theorem detect_none_of_no_long_walk (t : Tracker) (d : DetectorState)
    (h : ∀ c, closedWalkB (graphOf t) c = true → c.length < 4) :
    detect_deadlocks t d = (none, d) := by
  have hdl : deadlocksOf t = [] := by
    unfold deadlocksOf
    rw [List.filter_eq_nil_iff]
    intro c hc
    have hwalk := isCycleListB_closedWalk (simpleCycles_sound hc)
    have := h c hwalk
    simp
    omega
  simp [detect_deadlocks, hdl]

/-! Lemmas about the resolver's set collection and minimum. -/

theorem mem_addUnique {α : Type} [DecidableEq α] {l : List α} {a b : α} :
    b ∈ addUnique l a ↔ b ∈ l ∨ b = a := by
  unfold addUnique
  by_cases h : a ∈ l
  · rw [if_pos h]
    constructor
    · exact Or.inl
    · rintro (hb | hb)
      · exact hb
      · exact hb ▸ h
  · rw [if_neg h]
    simp

theorem collectSets_go (c : List Node) :
    ∀ acc : List Int × List String,
    (∀ q : Int, q ∈ (c.foldl resolverStep acc).1 ↔ q ∈ acc.1 ∨ Node.P q ∈ c) ∧
    (∀ s : String, s ∈ (c.foldl resolverStep acc).2 ↔ s ∈ acc.2 ∨ Node.R s ∈ c) := by
  induction c with
  | nil => intro acc; simp
  | cons n rest ih =>
    intro acc
    cases n with
    | P p =>
      constructor
      · intro q
        rw [List.foldl_cons, (ih (resolverStep acc (Node.P p))).1 q]
        simp only [resolverStep, mem_addUnique, List.mem_cons, Node.P.injEq]
        tauto
      · intro s
        rw [List.foldl_cons, (ih (resolverStep acc (Node.P p))).2 s]
        simp only [resolverStep, List.mem_cons]
        constructor
        · rintro (hs | hs)
          · exact Or.inl hs
          · exact Or.inr (Or.inr hs)
        · rintro (hs | hs | hs)
          · exact Or.inl hs
          · exact absurd hs (by simp)
          · exact Or.inr hs
    | R r =>
      constructor
      · intro q
        rw [List.foldl_cons, (ih (resolverStep acc (Node.R r))).1 q]
        simp only [resolverStep, List.mem_cons]
        constructor
        · rintro (hq | hq)
          · exact Or.inl hq
          · exact Or.inr (Or.inr hq)
        · rintro (hq | hq | hq)
          · exact Or.inl hq
          · exact absurd hq (by simp)
          · exact Or.inr hq
      · intro s
        rw [List.foldl_cons, (ih (resolverStep acc (Node.R r))).2 s]
        simp only [resolverStep, mem_addUnique, List.mem_cons, Node.R.injEq]
        tauto

theorem mem_collectSets_procs {c : List Node} {q : Int} :
    q ∈ (collectSets c).1 ↔ Node.P q ∈ c := by
  have := (collectSets_go c ([], [])).1 q
  simpa [collectSets] using this

theorem mem_collectSets_ress {c : List Node} {s : String} :
    s ∈ (collectSets c).2 ↔ Node.R s ∈ c := by
  have := (collectSets_go c ([], [])).2 s
  simpa [collectSets] using this

theorem listMin_eq_none_iff (l : List Int) : listMin l = none ↔ l = [] := by
  cases l with
  | nil => simp [listMin]
  | cons x xs =>
    simp only [listMin]
    cases listMin xs <;> simp

theorem listMin_mem {l : List Int} {m : Int} (h : listMin l = some m) : m ∈ l := by
  induction l generalizing m with
  | nil => simp [listMin] at h
  | cons x xs ih =>
    simp only [listMin] at h
    cases hx : listMin xs with
    | none =>
      rw [hx] at h
      simp only [Option.some_inj] at h
      rw [← h]
      exact List.mem_cons_self _ _
    | some m' =>
      rw [hx] at h
      simp only [Option.some_inj] at h
      rcases min_choice x m' with hc | hc
      · rw [hc] at h
        rw [← h]
        exact List.mem_cons_self _ _
      · rw [hc] at h
        exact List.mem_cons_of_mem _ (h ▸ ih hx)

theorem listMin_isSome_of_mem {l : List Int} {p : Int} (hp : p ∈ l) :
    ∃ m, listMin l = some m := by
  cases hm : listMin l with
  | none =>
    rw [listMin_eq_none_iff] at hm
    subst hm
    simp at hp
  | some m => exact ⟨m, rfl⟩

theorem listMin_le {l : List Int} {m : Int} (h : listMin l = some m) :
    ∀ q ∈ l, m ≤ q := by
  induction l generalizing m with
  | nil => simp [listMin] at h
  | cons x xs ih =>
    intro q hq
    simp only [listMin] at h
    cases hx : listMin xs with
    | none =>
      rw [hx] at h
      simp only [Option.some_inj] at h
      have hxs : xs = [] := (listMin_eq_none_iff xs).mp hx
      subst hxs
      simp only [List.mem_singleton] at hq
      rw [← h, hq]
    | some m' =>
      rw [hx] at h
      simp only [Option.some_inj] at h
      rcases List.mem_cons.mp hq with hq | hq
      · rw [← h, hq]
        exact min_le_left _ _
      · calc m ≤ m' := h ▸ min_le_right x m'
          _ ≤ q := ih hx q hq

/-! Theorems settling the claims. -/

set_option maxRecDepth 8000 in
/-- C1: in the classic two-process/two-resource scenario (process 1 holds X
and waits for Y, process 2 holds Y and waits for X, nothing else),
`detect_deadlocks` returns exactly one cycle; that cycle has 4 nodes and its
node set is exactly the processes 1, 2 and the resources X, Y; and exactly
one Detection Record is appended to the (initially empty) history. -/
theorem detect_classic_two_process_two_resource :
    (detect_deadlocks tScenario emptyDetector).1 =
      some [[Node.R "Y", Node.P 1, Node.R "X", Node.P 2]] ∧
    ([Node.R "Y", Node.P 1, Node.R "X", Node.P 2] : List Node).length = 4 ∧
    ([Node.R "Y", Node.P 1, Node.R "X", Node.P 2] : List Node).all
      (fun x => decide (x ∈ ([Node.P 1, Node.P 2, Node.R "X", Node.R "Y"] : List Node))) = true ∧
    ([Node.P 1, Node.P 2, Node.R "X", Node.R "Y"] : List Node).all
      (fun x => decide (x ∈ ([Node.R "Y", Node.P 1, Node.R "X", Node.P 2] : List Node))) = true ∧
    (detect_deadlocks tScenario emptyDetector).2.history =
      [⟨[[Node.R "Y", Node.P 1, Node.R "X", Node.P 2]], graphOf tScenario⟩] := by
  refine ⟨by decide, by decide, by decide, by decide, by decide⟩

/-- C2 (amended): whenever the allocation graph built from the current state
has no closed walk of at least 4 nodes, `detect_deadlocks` returns `none` —
the code's `return None`, an absent value rather than an empty list — and
the detector state (hence the history) is returned unchanged. -/
theorem detect_no_long_closed_walk_returns_none (t : Tracker) (d : DetectorState)
    (h : ∀ c, closedWalkB (graphOf t) c = true → c.length < 4) :
    detect_deadlocks t d = (none, d) :=
  detect_none_of_no_long_walk t d h

/-- C2 witness: the empty store has no closed walk at all, and detection on
it returns `none` with the history untouched. -/
theorem detect_no_long_closed_walk_returns_none_witness :
    detect_deadlocks emptyTracker emptyDetector = (none, emptyDetector) :=
  detect_no_long_closed_walk_returns_none emptyTracker emptyDetector
    (fun c hc => by
      rw [closedWalkB_no_edges (graphOf emptyTracker) rfl c] at hc
      exact absurd hc (by simp))

/-- C2 counterexample: the empty store satisfies the claim's precondition
(no closed walk of 4 or more nodes), yet `detect_deadlocks` returns the
absent value `none`, not the empty sequence `some []` the claim requires. -/
theorem detect_empty_store_returns_absent :
    (∀ c, closedWalkB (graphOf emptyTracker) c = true → c.length < 4) ∧
    (detect_deadlocks emptyTracker emptyDetector).1 = none ∧
    (detect_deadlocks emptyTracker emptyDetector).1 ≠ some [] := by
  refine ⟨?_, rfl, by decide⟩
  intro c hc
  rw [closedWalkB_no_edges (graphOf emptyTracker) rfl c] at hc
  exact absurd hc (by simp)

/-- C3: the snapshot returned by `get_system_state` shares the mutable
process records and holder lists with the live store (`dict.copy()` is
shallow): after the snapshot `sSnap` of `tSnapBase` is taken, a later
`allocate_resource(1, "X")` and `set_waiting_for(1, "Q")` are all visible
through the previously returned snapshot — its held list for pid 1 grows to
`["X", "X"]`, its `waiting_for` becomes `"Q"`, and the holder list of X
becomes `[1, 1]`. -/
theorem snapshot_shares_mutable_records :
    snapHeld tSnapBase.prheap sSnap 1 = ["X"] ∧
    snapHeld tSnapAfter.prheap sSnap 1 = ["X", "X"] ∧
    snapWaiting tSnapAfter.prheap sSnap 1 = some "Q" ∧
    snapHolders tSnapAfter.rlheap sSnap "X" = [1, 1] := by
  refine ⟨by decide, by decide, by decide, by decide⟩

/-- C4: `allocate_resource` and `set_waiting_for` on an unregistered pid
both return `False` and leave the whole store (heaps included) unchanged. -/
theorem unregistered_pid_ops_fail_without_effect (t : Tracker) (pid : Int)
    (r r' : String) (h : alookup t.procs pid = none) :
    allocateResource t pid r = (t, false) ∧ setWaitingFor t pid r' = (t, false) :=
  ⟨allocateResource_unknown t pid r h, setWaitingFor_unknown t pid r' h⟩

/-- C4 witness at pid 7 on the empty store. -/
theorem unregistered_pid_ops_fail_without_effect_witness :
    allocateResource emptyTracker 7 "X" = (emptyTracker, false) ∧
    setWaitingFor emptyTracker 7 "Y" = (emptyTracker, false) :=
  unregistered_pid_ops_fail_without_effect emptyTracker 7 "X" "Y" rfl

/-- C5: every cycle in the result of `detect_deadlocks` has at least 4
nodes, and every simple cycle with fewer than 4 nodes (in particular any
2-node process-resource pair) is excluded from the result. -/
theorem result_cycles_at_least_four_nodes (t : Tracker) (d : DetectorState)
    (c : List Node) :
    (c ∈ resultCycles (detect_deadlocks t d).1 → 4 ≤ c.length) ∧
    (isCycleListB (graphOf t) c = true → c.length < 4 →
      c ∉ resultCycles (detect_deadlocks t d).1) := by
  constructor
  · intro hc
    exact (mem_deadlocksOf.mp (mem_resultCycles.mp hc)).2
  · intro _ hlen hc
    have := (mem_deadlocksOf.mp (mem_resultCycles.mp hc)).2
    omega

set_option maxRecDepth 8000 in
/-- C5 witness: the reported classic cycle has 4 nodes, and the 2-node cycle
P1 → RX → P1 of `tTwoCycle` is a simple cycle yet excluded. -/
theorem result_cycles_at_least_four_nodes_witness :
    4 ≤ ([Node.R "Y", Node.P 1, Node.R "X", Node.P 2] : List Node).length ∧
    [Node.P 1, Node.R "X"] ∉
      resultCycles (detect_deadlocks tTwoCycle emptyDetector).1 :=
  ⟨(result_cycles_at_least_four_nodes tScenario emptyDetector _).1 (by decide),
   (result_cycles_at_least_four_nodes tTwoCycle emptyDetector _).2
     (by decide) (by decide)⟩

/-- C6: cycle enumeration is complete — whenever the allocation graph holds
two node-disjoint qualifying simple cycles, each of them appears (as one of
its rotations, which is how `nx.simple_cycles` represents a cycle) in the
result of `detect_deadlocks`. -/
theorem disjoint_qualifying_cycles_all_reported (t : Tracker) (d : DetectorState)
    (c₁ c₂ : List Node) (_hdisj : ∀ x ∈ c₁, x ∉ c₂)
    (h1 : isCycleListB (graphOf t) c₁ = true) (h1len : 4 ≤ c₁.length)
    (h2 : isCycleListB (graphOf t) c₂ = true) (h2len : 4 ≤ c₂.length) :
    (∃ y ∈ resultCycles (detect_deadlocks t d).1, ∃ n, c₁.rotate n = y) ∧
    (∃ y ∈ resultCycles (detect_deadlocks t d).1, ∃ n, c₂.rotate n = y) := by
  have key : ∀ c : List Node, isCycleListB (graphOf t) c = true → 4 ≤ c.length →
      ∃ y ∈ resultCycles (detect_deadlocks t d).1, ∃ n, c.rotate n = y := by
    intro c hc hlen
    obtain ⟨y, hy, n, hn⟩ := simpleCycles_complete hc
    have hylen : y.length = c.length := by rw [← hn, List.length_rotate]
    have hymem : y ∈ deadlocksOf t := mem_deadlocksOf.mpr ⟨hy, by omega⟩
    exact ⟨y, mem_resultCycles.mpr hymem, n, hn⟩
  exact ⟨key c₁ h1 h1len, key c₂ h2 h2len⟩

set_option maxRecDepth 8000 in
/-- C6 witness: `tTwoDeadlocks` holds the two node-disjoint 4-cycles over
processes 1, 2 with X, Y and processes 3, 4 with Z, W, and both are
reported. -/
theorem disjoint_qualifying_cycles_all_reported_witness :
    (∃ y ∈ resultCycles (detect_deadlocks tTwoDeadlocks emptyDetector).1, ∃ n,
      ([Node.P 1, Node.R "X", Node.P 2, Node.R "Y"] : List Node).rotate n = y) ∧
    (∃ y ∈ resultCycles (detect_deadlocks tTwoDeadlocks emptyDetector).1, ∃ n,
      ([Node.P 3, Node.R "Z", Node.P 4, Node.R "W"] : List Node).rotate n = y) :=
  disjoint_qualifying_cycles_all_reported tTwoDeadlocks emptyDetector
    [Node.P 1, Node.R "X", Node.P 2, Node.R "Y"]
    [Node.P 3, Node.R "Z", Node.P 4, Node.R "W"]
    (by decide) (by decide) (by decide) (by decide) (by decide)

/-- C7: on a cycle containing at least one process node and at least one
resource node, `suggest_resolutions` emits exactly a `process_termination`
entry whose targets are all of the cycle's processes and whose
recommendation names the minimum pid, followed by a `resource_preemption`
entry whose targets are all of the cycle's resources and whose
recommendation names a member of that set.  In this embedding the resolver
is a pure function of the cycle — it is given no access to the store or the
detector, matching the source, so it mutates neither. -/
theorem suggest_resolutions_both_kinds (c : List Node)
    (hp : ∃ p, Node.P p ∈ c) (hr : ∃ r, Node.R r ∈ c) :
    ∃ pm rm,
      suggest_resolutions c =
        [Resolution.process_termination
          "Terminate one process involved in the deadlock" (collectSets c).1
          ("Terminate process: " ++ toString pm ++ " (lowest PID)"),
         Resolution.resource_preemption
          "Preempt one resource involved in the deadlock" (collectSets c).2
          ("Preempt resource: " ++ rm)] ∧
      (∀ q : Int, q ∈ (collectSets c).1 ↔ Node.P q ∈ c) ∧
      Node.P pm ∈ c ∧ (∀ q ∈ (collectSets c).1, pm ≤ q) ∧
      (∀ s : String, s ∈ (collectSets c).2 ↔ Node.R s ∈ c) ∧
      Node.R rm ∈ c := by
  obtain ⟨p, hpm⟩ := hp
  obtain ⟨r, hrm⟩ := hr
  obtain ⟨pm, hpmin⟩ := listMin_isSome_of_mem (mem_collectSets_procs.mpr hpm)
  have hrmem : r ∈ (collectSets c).2 := mem_collectSets_ress.mpr hrm
  have hne2 : (collectSets c).2 ≠ [] := by
    intro hnil
    rw [hnil] at hrmem
    simp at hrmem
  obtain ⟨rm, hhead⟩ := Option.isSome_iff_exists.mp
    (by rwa [Option.isSome_iff_ne_none, ne_eq, List.head?_eq_none_iff])
  refine ⟨pm, rm, ?_, fun q => mem_collectSets_procs, ?_, ?_, fun s => mem_collectSets_ress, ?_⟩
  · simp only [suggest_resolutions, hpmin, hhead]
    rfl
  · exact mem_collectSets_procs.mp (listMin_mem hpmin)
  · exact listMin_le hpmin
  · exact mem_collectSets_ress.mp (List.mem_of_mem_head? (hhead ▸ rfl))

/-- C7 witness on the classic cycle: processes {1, 2}, resources {X, Y}. -/
theorem suggest_resolutions_both_kinds_witness :
    ∃ pm rm,
      suggest_resolutions [Node.R "Y", Node.P 1, Node.R "X", Node.P 2] =
        [Resolution.process_termination
          "Terminate one process involved in the deadlock"
          (collectSets [Node.R "Y", Node.P 1, Node.R "X", Node.P 2]).1
          ("Terminate process: " ++ toString pm ++ " (lowest PID)"),
         Resolution.resource_preemption
          "Preempt one resource involved in the deadlock"
          (collectSets [Node.R "Y", Node.P 1, Node.R "X", Node.P 2]).2
          ("Preempt resource: " ++ rm)] ∧
      (∀ q : Int, q ∈ (collectSets [Node.R "Y", Node.P 1, Node.R "X", Node.P 2]).1 ↔
        Node.P q ∈ [Node.R "Y", Node.P 1, Node.R "X", Node.P 2]) ∧
      Node.P pm ∈ ([Node.R "Y", Node.P 1, Node.R "X", Node.P 2] : List Node) ∧
      (∀ q ∈ (collectSets [Node.R "Y", Node.P 1, Node.R "X", Node.P 2]).1, pm ≤ q) ∧
      (∀ s : String, s ∈ (collectSets [Node.R "Y", Node.P 1, Node.R "X", Node.P 2]).2 ↔
        Node.R s ∈ [Node.R "Y", Node.P 1, Node.R "X", Node.P 2]) ∧
      Node.R rm ∈ ([Node.R "Y", Node.P 1, Node.R "X", Node.P 2] : List Node) :=
  suggest_resolutions_both_kinds _ ⟨1, by decide⟩ ⟨"Y", by decide⟩

/-- C8: `clear_system` followed by `detect_deadlocks` reports no cycles
(the no-deadlock result `none`, i.e. an empty reported-cycle list) and
leaves the history unchanged, regardless of the prior state. -/
theorem clear_then_detect_reports_empty (t : Tracker) (d : DetectorState) :
    detect_deadlocks (clearSystem t) d = (none, d) ∧
    resultCycles (detect_deadlocks (clearSystem t) d).1 = [] :=
  ⟨rfl, rfl⟩

/-- C9 counterexample: after `add_process(1); allocate_resource(1, "X");
add_process(1)` the holder index still lists pid 1 under X while the fresh
record of pid 1 holds nothing, so the claimed two-way consistency fails. -/
theorem holder_index_stale_after_repeated_add :
    ¬ (1 ∈ holdersView tReAdd "X" ↔ "X" ∈ heldView tReAdd 1) := by decide

/-- C9 (amended): in every reachable store state the forward direction
holds — any resource in a process's held list also lists that process in
the holder index.  The converse direction is refuted by
the stale entry that re-registration leaves behind. -/
theorem held_in_holder_index (t : Tracker) (h : Reachable t) (pid : Int)
    (r : String) (hr : r ∈ heldView t pid) : pid ∈ holdersView t r :=
  (reachable_inv h).held pid r hr

/-- C9 witness on the reachable state `tSnapBase`. -/
theorem held_in_holder_index_witness : 1 ∈ holdersView tSnapBase "X" :=
  held_in_holder_index tSnapBase
    (Reachable.alloc 1 "X" (Reachable.add 1 "A" Reachable.init)) 1 "X" (by decide)

/-- C10 counterexample: after allocating X to pid 1 twice, X occurs twice in
pid 1's held list (and pid 1 twice in X's holder list), refuting the
claimed set semantics. -/
theorem held_list_contains_duplicates :
    (heldView tSnapAfter 1).count "X" = 2 ∧
    ¬ ((heldView tSnapAfter 1).count "X" ≤ 1) ∧
    (holdersView tSnapAfter "X").count 1 = 2 := by
  refine ⟨by decide, by decide, by decide⟩

/-- C10 (amended): the held collection is a Python list, not a set — every
successful `allocate_resource(pid, r)` appends exactly one more occurrence
of `r` to pid's held list and one more occurrence of `pid` to r's holder
list, so two calls leave two occurrences of each. -/
theorem allocate_appends_one_occurrence (t : Tracker) (h : Reachable t)
    (pid : Int) (r : String) (hreg : (alookup t.procs pid).isSome = true) :
    (heldView (allocateResource t pid r).1 pid).count r =
      (heldView t pid).count r + 1 ∧
    (holdersView (allocateResource t pid r).1 r).count pid =
      (holdersView t r).count pid + 1 := by
  obtain ⟨paddr, hp⟩ := Option.isSome_iff_exists.mp hreg
  have hInv := reachable_inv h
  constructor
  · rw [heldView_alloc_self t hInv r hp, List.count_append]
    simp
  · rw [holdersView_alloc_self t hInv r hp, List.count_append]
    simp

/-- C10 witness: the second allocation of X to pid 1 takes both counts from
1 to 2. -/
theorem allocate_appends_one_occurrence_witness :
    (heldView (allocateResource tSnapBase 1 "X").1 1).count "X" =
      (heldView tSnapBase 1).count "X" + 1 ∧
    (holdersView (allocateResource tSnapBase 1 "X").1 "X").count 1 =
      (holdersView tSnapBase "X").count 1 + 1 :=
  allocate_appends_one_occurrence tSnapBase
    (Reachable.alloc 1 "X" (Reachable.add 1 "A" Reachable.init)) 1 "X" (by decide)

end DeadlockTool
